import Mathlib

set_option maxHeartbeats 1000000

namespace Vestaboard

/-!
Shallow embedding of the vestaboard-local repository.

Text is modelled as its sequence of Unicode code points (`List Nat`).
Python's `str.upper()` is modelled by `pyUpper` (full uppercasing, which may
change the length: `ß` becomes `SS`), and `re.IGNORECASE` literal matching by
`reCharMatch` (lowered comparison plus the case-fold equivalences that reach
the pattern's ASCII letters, e.g. KELVIN SIGN U+212A matching `K`).
The display rendering engine (src/characters.py), the scheduler
(src/scheduler.py) and the logical contract of the storage layer
(src/storage.py) are embedded below; external collaborators (the HTTP
transport in src/client.py, the third-party fetchers in src/fetchers.py and
the croniter library) are modelled as oracle functions supplied through an
environment record, following the spec's component boundaries.

The index-based scanning loops of characters.py are written with an explicit
fuel argument (one unit per loop iteration; the index `i` strictly increases
each iteration, so `length` units always suffice), which keeps every
definition computable by the kernel.
-/

/-- Code points of a Lean string literal, used to state concrete examples.
Python strings are sequences of Unicode code points, modelled as `List Nat`. -/
def ofString (s : String) : List Nat := s.data.map Char.toNat

/-- Model of Python `str.upper()` on one code point; the result may be more
than one character (full Unicode uppercasing).  Besides ASCII it covers the
mappings that interact with the token pattern or the character table: `ß`
(U+00DF) uppercases to `SS` (two characters), dotless `ı` (U+0131) to `I`,
long `ſ` (U+017F) to `S`; KELVIN SIGN (U+212A) and `İ` (U+0130) uppercase
to themselves.  Other code points are left unchanged — their uppercase
forms are, like themselves, outside the table and the pattern alphabet
(the few remaining multi-character expansions, such as the `ﬁ` ligature,
only affect which blank codes such characters encode to). -/
def pyUpper (c : Nat) : List Nat :=
  if 97 ≤ c ∧ c ≤ 122 then [c - 32]
  else if c = 223 then [83, 83]
  else if c = 305 then [73]
  else if c = 383 then [83]
  else [c]

/-- Python `text.upper()` over a whole string (the length may grow). -/
def upperString (s : List Nat) : List Nat := (s.map pyUpper).flatten

/-- The per-character lowering CPython's `re` applies when matching a
literal case-insensitively (Unicode simple lowercase).  KELVIN SIGN
(U+212A) is the only code point outside ASCII whose lowercase is an ASCII
letter (`k`), and `İ` (U+0130) simple-lowercases to `i`; every other code
point is left unchanged, which compares against the pattern's ASCII
literals exactly as the true lowering does (their true lowercase is not an
ASCII letter either). -/
def sreLower (c : Nat) : Nat :=
  if 65 ≤ c ∧ c ≤ 90 then c + 32
  else if c = 8490 then 107
  else if c = 304 then 105
  else c

/-- One-character case-insensitive match of input `c` against pattern
literal `t`, as CPython `re.IGNORECASE` performs it: equality of the
lowered characters, plus the equivalence classes of CPython's
`_equivalences` table that contain an ASCII letter — dotless `ı` (U+0131)
with `i`, long `ſ` (U+017F) with `s`.  The remaining classes contain no
ASCII letter and this pattern's literals are all ASCII. -/
def reCharMatch (c t : Nat) : Bool :=
  sreLower c == sreLower t ||
    (sreLower c == 105 && sreLower t == 305) ||
    (sreLower c == 305 && sreLower t == 105) ||
    (sreLower c == 115 && sreLower t == 383) ||
    (sreLower c == 383 && sreLower t == 115)

/-- characters.py `CHAR_CODES`: the fixed character-to-symbol-code table.
Keys are code points of the (uppercase) characters in the source dict. -/
def CHAR_CODES : List (Nat × Nat) :=
  [(32, 0),                                                                          -- " "
   (65, 1), (66, 2), (67, 3), (68, 4), (69, 5), (70, 6), (71, 7), (72, 8), (73, 9),  -- A..I
   (74, 10), (75, 11), (76, 12), (77, 13), (78, 14), (79, 15), (80, 16), (81, 17),   -- J..Q
   (82, 18), (83, 19), (84, 20), (85, 21), (86, 22), (87, 23), (88, 24), (89, 25),   -- R..Y
   (90, 26),                                                                         -- Z
   (49, 27), (50, 28), (51, 29), (52, 30), (53, 31), (54, 32), (55, 33), (56, 34),   -- 1..8
   (57, 35), (48, 36),                                                               -- 9, 0
   (33, 37), (64, 38), (35, 39), (36, 40), (40, 41), (41, 42),                       -- ! @ # $ ( )
   (45, 44), (43, 46), (38, 47), (61, 48), (59, 49), (58, 50),                       -- - + & = ; :
   (39, 52), (34, 53), (37, 54), (44, 55), (46, 56),                                 -- ' " % , .
   (47, 59), (63, 60), (176, 62),                                                    -- / ? degree
   (9608, 71)]                                                                       -- filled block

/-- characters.py `SPECIAL_CODES`: named tokens usable as bracketed inline
tokens, in source order (the order of the regex alternation). -/
def SPECIAL_CODES : List (String × Nat) :=
  [("RED", 63), ("ORANGE", 64), ("YELLOW", 65), ("GREEN", 66), ("BLUE", 67),
   ("VIOLET", 68), ("WHITE", 69), ("BLACK", 70), ("BLOCK", 71)]

/-- Lookup of one character in `CHAR_CODES`; characters absent from the table
become code 0 (the `else` branch of `text_to_codes`). -/
def charCode (c : Nat) : Nat :=
  ((CHAR_CODES.find? (fun p => p.1 == c)).map (fun p => p.2)).getD 0

/-- Element-wise case-insensitive comparison of a piece of input text with
the literal token-name characters of `SPECIAL_CODE_PATTERN`
(`re.IGNORECASE` semantics via `reCharMatch`). -/
def ciEqList : List Nat → List Nat → Bool
  | [], [] => true
  | a :: as, b :: bs => reCharMatch a b && ciEqList as bs
  | _, _ => false

/-- Does the alternative `\x7b NAME \x7d` of `SPECIAL_CODE_PATTERN` match at
the head of `cs`?  The pattern needs an opening brace (code 123), the token
name case-insensitively, and a closing brace (code 125). -/
def matchToken (cs : List Nat) (name : List Nat) : Bool :=
  match cs with
  | c :: rest =>
      c == 123 && ciEqList (rest.take name.length) name &&
        ((rest.drop name.length).head? == some 125)
  | [] => false

/-- `SPECIAL_CODE_PATTERN.match(text, i)` at the head of `cs`: the first
alternation branch that matches, together with the token's code and the
total number of characters consumed (`match.end() - i`). -/
def matchSpecial (cs : List Nat) : Option (Nat × Nat) :=
  (SPECIAL_CODES.find? (fun p => matchToken cs (ofString p.1))).map
    (fun p => (p.2, (ofString p.1).length + 2))

theorem matchSpecial_two_le (cs : List Nat) (a k : Nat)
    (h : matchSpecial cs = some (a, k)) : 2 ≤ k := by
  unfold matchSpecial at h
  cases hf : SPECIAL_CODES.find? (fun p => matchToken cs (ofString p.1)) with
  | none => rw [hf] at h; simp at h
  | some p =>
      rw [hf] at h
      simp only [Option.map_some', Option.some.injEq, Prod.mk.injEq] at h
      omega

theorem matchSpecial_nil : matchSpecial [] = none := by
  simp [matchSpecial, SPECIAL_CODES, matchToken]

/-- characters.py `text_to_codes` scanning loop: at each position, first try
the bracketed-token pattern (only relevant when the character is an opening
brace, which the pattern requires anyway), otherwise emit the character's
code (0 when unmapped) and advance one position. -/
def text_to_codes_fuel : Nat → List Nat → List Nat
  | _, [] => []
  | 0, _ :: _ => []
  | n + 1, c :: rest =>
    match matchSpecial (c :: rest) with
    | some (code, k) => code :: text_to_codes_fuel n ((c :: rest).drop k)
    | none => charCode c :: text_to_codes_fuel n rest

/-- The `text_to_codes` scan of one (already uppercased) code-point list. -/
def text_to_codes_go (cs : List Nat) : List Nat := text_to_codes_fuel cs.length cs

/-- characters.py `text_to_codes`: the input is uppercased first, then
scanned. -/
def text_to_codes (s : List Nat) : List Nat := text_to_codes_go (upperString s)

theorem text_to_codes_fuel_congr :
    ∀ (n m : Nat) (cs : List Nat), cs.length ≤ n → cs.length ≤ m →
      text_to_codes_fuel n cs = text_to_codes_fuel m cs := by
  intro n
  induction n with
  | zero =>
      intro m cs hn _
      have : cs = [] := List.length_eq_zero.mp (Nat.le_zero.mp hn)
      subst this
      cases m <;> rfl
  | succ n ih =>
      intro m cs hn hm
      cases cs with
      | nil => cases m <;> rfl
      | cons c rest =>
          cases m with
          | zero => exact absurd hm (by simp)
          | succ m =>
              cases h : matchSpecial (c :: rest) with
              | none =>
                  simp only [text_to_codes_fuel, h]
                  simp only [List.length_cons] at hn hm
                  rw [ih m rest (by omega) (by omega)]
              | some ck =>
                  obtain ⟨code, k⟩ := ck
                  simp only [text_to_codes_fuel, h]
                  have h2 := matchSpecial_two_le _ _ _ h
                  simp only [List.length_cons] at hn hm
                  rw [ih m ((c :: rest).drop k)
                    (by simp only [List.length_drop, List.length_cons]; omega)
                    (by simp only [List.length_drop, List.length_cons]; omega)]

theorem text_to_codes_go_nil : text_to_codes_go [] = [] := rfl

theorem text_to_codes_go_cons_some {c : Nat} {rest : List Nat} {code k : Nat}
    (h : matchSpecial (c :: rest) = some (code, k)) :
    text_to_codes_go (c :: rest) = code :: text_to_codes_go ((c :: rest).drop k) := by
  have h2 := matchSpecial_two_le _ _ _ h
  simp only [text_to_codes_go, List.length_cons, text_to_codes_fuel, h]
  rw [text_to_codes_fuel_congr rest.length ((c :: rest).drop k).length]
  · simp only [List.length_drop, List.length_cons]; omega
  · exact Nat.le_refl _

theorem text_to_codes_go_cons_none {c : Nat} {rest : List Nat}
    (h : matchSpecial (c :: rest) = none) :
    text_to_codes_go (c :: rest) = charCode c :: text_to_codes_go rest := by
  simp only [text_to_codes_go, List.length_cons, text_to_codes_fuel, h]

/-- characters.py `get_display_length`, written as the equivalent left-to-right
scan performed by `SPECIAL_CODE_PATTERN.findall` / `.sub`: each match counts
one cell and the scan resumes after it; every other character counts one
cell (it survives the substitution and is counted by `len`). -/
def get_display_length_fuel : Nat → List Nat → Nat
  | _, [] => 0
  | 0, _ :: _ => 0
  | n + 1, c :: rest =>
    match matchSpecial (c :: rest) with
    | some (_, k) => 1 + get_display_length_fuel n ((c :: rest).drop k)
    | none => 1 + get_display_length_fuel n rest

/-- characters.py `get_display_length` (applied to the original,
not-yet-uppercased text, exactly as in the source). -/
def get_display_length (s : List Nat) : Nat := get_display_length_fuel s.length s

theorem get_display_length_fuel_congr :
    ∀ (n m : Nat) (cs : List Nat), cs.length ≤ n → cs.length ≤ m →
      get_display_length_fuel n cs = get_display_length_fuel m cs := by
  intro n
  induction n with
  | zero =>
      intro m cs hn _
      have : cs = [] := List.length_eq_zero.mp (Nat.le_zero.mp hn)
      subst this
      cases m <;> rfl
  | succ n ih =>
      intro m cs hn hm
      cases cs with
      | nil => cases m <;> rfl
      | cons c rest =>
          cases m with
          | zero => exact absurd hm (by simp)
          | succ m =>
              cases h : matchSpecial (c :: rest) with
              | none =>
                  simp only [get_display_length_fuel, h]
                  simp only [List.length_cons] at hn hm
                  rw [ih m rest (by omega) (by omega)]
              | some ck =>
                  obtain ⟨code, k⟩ := ck
                  simp only [get_display_length_fuel, h]
                  have h2 := matchSpecial_two_le _ _ _ h
                  simp only [List.length_cons] at hn hm
                  rw [ih m ((c :: rest).drop k)
                    (by simp only [List.length_drop, List.length_cons]; omega)
                    (by simp only [List.length_drop, List.length_cons]; omega)]

theorem get_display_length_nil : get_display_length [] = 0 := rfl

theorem get_display_length_cons_some {c : Nat} {rest : List Nat} {code k : Nat}
    (h : matchSpecial (c :: rest) = some (code, k)) :
    get_display_length (c :: rest) = 1 + get_display_length ((c :: rest).drop k) := by
  have h2 := matchSpecial_two_le _ _ _ h
  simp only [get_display_length, List.length_cons, get_display_length_fuel, h]
  rw [get_display_length_fuel_congr rest.length ((c :: rest).drop k).length]
  · simp only [List.length_drop, List.length_cons]; omega
  · exact Nat.le_refl _

theorem get_display_length_cons_none {c : Nat} {rest : List Nat}
    (h : matchSpecial (c :: rest) = none) :
    get_display_length (c :: rest) = 1 + get_display_length rest := by
  simp only [get_display_length, List.length_cons, get_display_length_fuel, h]

example : text_to_codes (ofString "{RED}HI") = [63, 8, 9] := by decide
example : get_display_length (ofString "{RED}HI") = 3 := by decide
example : text_to_codes (ofString "{nope}") = [0, 14, 15, 16, 5, 0] := by decide
example : text_to_codes (ofString "{red}x") = [63, 24] := by decide

/-- characters.py `ROWS`. -/
def ROWS : Nat := 6

/-- characters.py `COLS`. -/
def COLS : Nat := 22

/-- One all-blank board row (`[0] * COLS`). -/
def blankRow : List Nat := List.replicate COLS 0

/-- Body of the `create_board` row loop after encoding one line: truncate to
`COLS`, compute the start column (centered or 0), then write the codes at
`start_col + col_idx`.  `List.set` is a no-op out of bounds, exactly like the
source's `if start_col + col_idx < COLS` guard on a row of length `COLS`. -/
def placeCodes (codes0 : List Nat) (center : Bool) : List Nat :=
  let codes := codes0.take COLS
  let start := if center then (COLS - codes.length) / 2 else 0
  codes.enum.foldl (fun row p => row.set (start + p.1) p.2) blankRow

/-- The `create_board` row loop for one line, with the codec's value taken
on its non-raising path (see `rowsChecked` for the raising path). -/
def placeLine (line : List Nat) (center : Bool) : List Nat :=
  placeCodes (text_to_codes line) center

/-- characters.py `create_board`: up to `ROWS` lines are rendered, remaining
rows stay all-blank. -/
def create_board (lines : List (List Nat)) (center : Bool) : List (List Nat) :=
  (lines.take ROWS).map (fun l => placeLine l center) ++
    List.replicate (ROWS - (lines.take ROWS).length) blankRow

/-- Whitespace characters recognised by Python `str.split()` (ASCII range). -/
def isPySpace (c : Nat) : Bool :=
  c == 32 || c == 9 || c == 10 || c == 11 || c == 12 || c == 13

/-- Python `text.split()`: maximal runs of non-whitespace characters. -/
def splitWords_fuel : Nat → List Nat → List (List Nat)
  | _, [] => []
  | 0, _ :: _ => []
  | n + 1, c :: rest =>
    if isPySpace c then splitWords_fuel n rest
    else (c :: rest.takeWhile (fun d => !isPySpace d)) ::
      splitWords_fuel n (rest.dropWhile (fun d => !isPySpace d))

/-- Python `text.split()` (one fuel unit per character inspected or skipped;
the scan position strictly advances, so `length` units suffice). -/
def splitWords (cs : List Nat) : List (List Nat) := splitWords_fuel cs.length cs

theorem splitWords_fuel_congr :
    ∀ (n m : Nat) (cs : List Nat), cs.length ≤ n → cs.length ≤ m →
      splitWords_fuel n cs = splitWords_fuel m cs := by
  intro n
  induction n with
  | zero =>
      intro m cs hn _
      have : cs = [] := List.length_eq_zero.mp (Nat.le_zero.mp hn)
      subst this
      cases m <;> rfl
  | succ n ih =>
      intro m cs hn hm
      cases cs with
      | nil => cases m <;> rfl
      | cons c rest =>
          cases m with
          | zero => exact absurd hm (by simp)
          | succ m =>
              simp only [splitWords_fuel]
              simp only [List.length_cons] at hn hm
              by_cases hc : isPySpace c
              · simp only [hc, if_true]
                exact ih m rest (by omega) (by omega)
              · have hd : (rest.dropWhile (fun d => !isPySpace d)).length ≤ rest.length :=
                  (List.dropWhile_sublist _).length_le
                rw [ih m (rest.dropWhile (fun d => !isPySpace d)) (by omega) (by omega)]
                simp [hc]

theorem splitWords_nil : splitWords [] = [] := rfl

theorem splitWords_cons_space {c : Nat} {rest : List Nat} (h : isPySpace c = true) :
    splitWords (c :: rest) = splitWords rest := by
  simp only [splitWords, List.length_cons, splitWords_fuel, h, if_true]

theorem splitWords_cons_word {c : Nat} {rest : List Nat} (h : isPySpace c = false) :
    splitWords (c :: rest) =
      (c :: rest.takeWhile (fun d => !isPySpace d)) ::
        splitWords (rest.dropWhile (fun d => !isPySpace d)) := by
  simp only [splitWords, List.length_cons, splitWords_fuel, h, Bool.false_eq_true,
    if_false, List.cons.injEq, true_and]
  exact splitWords_fuel_congr _ _ _ (List.dropWhile_sublist _).length_le (Nat.le_refl _)

/-- Python `" ".join(words)` on code-point lists. -/
def joinSp (ws : List (List Nat)) : List Nat := List.intercalate [32] ws

/-- One iteration of the `wrap_text` word loop on the state
`(lines, current_line, current_length)`. -/
def wrap_step (width : Nat) (st : List (List Nat) × List (List Nat) × Nat)
    (word : List Nat) : List (List Nat) × List (List Nat) × Nat :=
  let lines := st.1
  let cur := st.2.1
  let clen := st.2.2
  let wl := get_display_length word
  if clen + wl + (if cur.isEmpty then 0 else 1) ≤ width then
    (lines, cur ++ [word], clen + wl + (if (cur ++ [word]).length > 1 then 1 else 0))
  else
    ((if cur.isEmpty then lines else lines ++ [joinSp cur]), [word], wl)

/-- characters.py `wrap_text`: greedy word wrap over `text.split()`, flushing
the pending line at the end when non-empty. -/
def wrap_text (text : List Nat) (width : Nat) : List (List Nat) :=
  let r := (splitWords text).foldl (wrap_step width) ([], [], 0)
  if r.2.1.isEmpty then r.1 else r.1 ++ [joinSp r.2.1]

/-- characters.py `format_message`: wrap at width `COLS`, keep at most `ROWS`
lines, vertically center by prefixing blank lines when centering, then
delegate to `create_board`. -/
def format_message (text : List Nat) (center : Bool) : List (List Nat) :=
  let lines := (wrap_text text COLS).take ROWS
  let padded :=
    if center = true ∧ lines.length < ROWS then
      List.replicate ((ROWS - lines.length) / 2) [] ++ lines
    else lines
  create_board padded center

example : wrap_text (ofString "A B C") 22 = [ofString "A B C"] := by decide
example : splitWords (ofString "A B C") = [[65], [66], [67]] := by decide
example : (create_board [ofString "HI"] true).getD 0 [] =
    List.replicate 10 0 ++ 8 :: 9 :: List.replicate 10 0 := by decide
example : (format_message (ofString "HI") true).length = 6 := by decide

theorem foldl_set_length (ps : List (Nat × Nat)) (s : Nat) :
    ∀ init : List Nat,
      (ps.foldl (fun row p => row.set (s + p.1) p.2) init).length = init.length := by
  induction ps with
  | nil => intro init; rfl
  | cons p ps ih =>
      intro init
      simp only [List.foldl_cons, ih (init.set (s + p.1) p.2), List.length_set]

theorem placeCodes_length (codes0 : List Nat) (center : Bool) :
    (placeCodes codes0 center).length = 22 := by
  unfold placeCodes
  rw [foldl_set_length]
  rfl

theorem find?_congr {α : Type} (l : List α) (f g : α → Bool)
    (h : ∀ x ∈ l, f x = g x) : l.find? f = l.find? g := by
  induction l with
  | nil => rfl
  | cons x xs ih =>
      simp only [List.find?]
      rw [h x (List.mem_cons_self x xs)]
      cases g x
      · exact ih fun y hy => h y (List.mem_cons_of_mem x hy)
      · rfl

theorem foldl_set_getD :
    ∀ (codes : List Nat) (n : Nat) (init : List Nat) (s j : Nat), j < init.length →
      ((List.enumFrom n codes).foldl (fun row p => row.set (s + p.1) p.2) init).getD j 0 =
        if s + n ≤ j ∧ j < s + n + codes.length then codes.getD (j - s - n) 0
        else init.getD j 0 := by
  intro codes
  induction codes with
  | nil =>
      intro n init s j hj
      rw [if_neg (by simp only [List.length_nil]; omega)]
      rfl
  | cons c cs ih =>
      intro n init s j hj
      have hstep : List.enumFrom n (c :: cs) = (n, c) :: List.enumFrom (n + 1) cs := rfl
      rw [hstep, List.foldl_cons]
      rw [ih (n + 1) (init.set (s + n) c) s j (by rw [List.length_set]; exact hj)]
      by_cases h1 : s + n ≤ j ∧ j < s + n + (c :: cs).length
      · rw [if_pos h1]
        rcases Nat.lt_or_ge (s + n) j with hlt | hge
        · rw [if_pos (by simp at h1 ⊢; omega)]
          have hj1 : j - s - n = (j - s - (n + 1)) + 1 := by omega
          rw [hj1, List.getD_cons_succ]
        · have hje : j = s + n := by omega
          rw [if_neg (by omega)]
          subst hje
          rw [List.getD_eq_getElem?_getD, List.getElem?_set_self hj]
          simp
      · rw [if_neg h1, if_neg (by simp at h1 ⊢; omega)]
        have hne : s + n ≠ j := by simp at h1; omega
        rw [List.getD_eq_getElem?_getD, List.getElem?_set_ne hne,
          ← List.getD_eq_getElem?_getD]

theorem blankRow_getD (j : Nat) : blankRow.getD j 0 = 0 := by
  rw [List.getD_eq_getElem?_getD]
  unfold blankRow COLS
  rw [List.getElem?_replicate]
  split <;> rfl

theorem foldl_set_getD_zero (codes init : List Nat) (s j : Nat) (hj : j < init.length) :
    (codes.enum.foldl (fun row p => row.set (s + p.1) p.2) init).getD j 0 =
      if s ≤ j ∧ j < s + codes.length then codes.getD (j - s) 0 else init.getD j 0 := by
  have he : codes.enum = List.enumFrom 0 codes := rfl
  rw [he, foldl_set_getD codes 0 init s j hj]
  simp only [Nat.add_zero, Nat.sub_zero]

theorem placeLine_getD (line : List Nat) (center : Bool) (j : Nat) (hj : j < 22) :
    (placeLine line center).getD j 0 =
      (let codes := (text_to_codes line).take 22
       let start := if center then (22 - codes.length) / 2 else 0
       if start ≤ j ∧ j < start + codes.length then codes.getD (j - start) 0 else 0) := by
  unfold placeLine placeCodes COLS
  dsimp only
  rw [foldl_set_getD_zero _ blankRow _ j
    (by unfold blankRow COLS; rw [List.length_replicate]; exact hj)]
  rw [blankRow_getD]

theorem create_board_getD (lines : List (List Nat)) (center : Bool) (i : Nat)
    (hi : i < (lines.take 6).length) :
    (create_board lines center).getD i [] = placeLine (lines.getD i []) center := by
  have h6 : i < 6 := by
    rw [List.length_take] at hi
    omega
  have hil : i < lines.length := by
    rw [List.length_take] at hi
    omega
  unfold create_board ROWS
  rw [List.getD_eq_getElem?_getD,
    List.getElem?_append_left (by rw [List.length_map]; exact hi),
    List.getElem?_map, List.getElem?_take_of_lt h6, List.getElem?_eq_getElem hil]
  simp only [Option.map_some', Option.getD_some]
  rw [List.getD_eq_getElem?_getD, List.getElem?_eq_getElem hil]
  rfl

/-- Claim C8: in every rendered row of `create_board`, the (truncated) encoded cells
start at column `(22 - len) / 2` (floor division, residual padding on the
right) when centering, and at column 0 otherwise; cell `j` holds the
`(j - start)`-th code inside that window and 0 outside it. -/
theorem claim_C8_centering :
    ∀ (lines : List (List Nat)) (center : Bool) (i j : Nat),
      i < (lines.take 6).length → j < 22 →
      ((create_board lines center).getD i []).getD j 0 =
        (let codes := (text_to_codes (lines.getD i [])).take 22
         let start := if center then (22 - codes.length) / 2 else 0
         if start ≤ j ∧ j < start + codes.length then codes.getD (j - start) 0 else 0) := by
  intro lines center i j hi hj
  rw [create_board_getD lines center i hi, placeLine_getD _ center j hj]

theorem claim_C8_centering_witness :
    ((create_board [ofString "HI"] true).getD 0 []).getD 10 0 = 8 ∧
      ((create_board [ofString "HI"] true).getD 0 []).getD 9 0 = 0 ∧
      ((create_board [ofString "HI"] false).getD 0 []).getD 0 0 = 8 :=
  ⟨(claim_C8_centering [ofString "HI"] true 0 10 (by decide) (by decide)).trans (by decide),
   (claim_C8_centering [ofString "HI"] true 0 9 (by decide) (by decide)).trans (by decide),
   (claim_C8_centering [ofString "HI"] false 0 0 (by decide) (by decide)).trans (by decide)⟩

/-- The dict lookup `SPECIAL_CODES[code_name]` performed by `text_to_codes`
on the uppercased matched group; `none` models a `KeyError`. -/
def lookupSpecial (name : List Nat) : Option Nat :=
  (SPECIAL_CODES.find? (fun p => ofString p.1 == name)).map (fun p => p.2)

/-- Like `matchSpecial` but returning the matched group (`match.group(1)`,
the characters actually present in the scanned text) instead of the table
code, so that the dict lookup of the source can be modelled separately. -/
def matchSpecialGroup (cs : List Nat) : Option (List Nat × Nat) :=
  (SPECIAL_CODES.find? (fun p => matchToken cs (ofString p.1))).map
    (fun p => ((cs.drop 1).take (ofString p.1).length, (ofString p.1).length + 2))

/-- characters.py `text_to_codes` with the fallible dict lookup of the source
kept fallible: on a pattern match, `match.group(1).upper()` is looked up in
`SPECIAL_CODES`, and a missing key (Python `KeyError`) yields `none`. -/
def text_to_codes_checked_fuel : Nat → List Nat → Option (List Nat)
  | _, [] => some []
  | 0, _ :: _ => some []
  | n + 1, c :: rest =>
    match matchSpecialGroup (c :: rest) with
    | some (g, k) =>
      match lookupSpecial (upperString g) with
      | some code => (text_to_codes_checked_fuel n ((c :: rest).drop k)).map (fun l => code :: l)
      | none => none
    | none => (text_to_codes_checked_fuel n rest).map (fun l => charCode c :: l)

/-- The fallible variant of `text_to_codes` (input uppercased, then scanned,
with the `KeyError` possibility of the source kept visible). -/
def text_to_codes_checked (s : List Nat) : Option (List Nat) :=
  text_to_codes_checked_fuel (upperString s).length (upperString s)

theorem matchSpecial_singleton (x : Nat) : matchSpecial [x] = none := by
  simp [matchSpecial, SPECIAL_CODES, matchToken, ofString, ciEqList]

theorem matchSpecialGroup_singleton (x : Nat) : matchSpecialGroup [x] = none := by
  simp [matchSpecialGroup, SPECIAL_CODES, matchToken, ofString, ciEqList]

/-- Model of Python `str.lower()` on an ASCII code point (used to state the
lower-case token examples). -/
def lowerChar (n : Nat) : Nat := if 65 ≤ n ∧ n ≤ 90 then n + 32 else n

/-- The line `"\x7bblac" ++ KELVIN SIGN ++ "\x7d"` (U+212A = 8490):
`re.IGNORECASE` matches KELVIN SIGN against the pattern literal `K` (both
lower to `k`), but `str.upper()` leaves KELVIN SIGN unchanged, so the
matched group's `.upper()` is not a `SPECIAL_CODES` key. -/
def kelvinLine : List Nat := 123 :: ofString "blac" ++ [8490, 125]

/-- Claim C2: refuted on the program.  Python `str.upper()` turns `"ß"` into
`"SS"`, so `text_to_codes "ß"` emits two codes while `get_display_length
"ß"` (computed on the original text, which is never uppercased) counts one
cell; the claimed equality holds on the spec's concrete example `"{RED}HI"`
but not for every input text. -/
theorem claim_C2_display_length_mismatch :
    get_display_length (ofString "ß") = 1 ∧
    text_to_codes (ofString "ß") = [19, 19] ∧
    text_to_codes_checked (ofString "ß") = some [19, 19] ∧
    get_display_length (ofString "{RED}HI") = 3 ∧
    (text_to_codes (ofString "{RED}HI")).length = 3 := by decide

/-- Claim C9: refuted on the program — `encode` is not total.  On the line
`kelvinLine` the pattern matches (KELVIN SIGN case-folds to `k`), the
group's `.upper()` is not a `SPECIAL_CODES` key, and the dict lookup raises
`KeyError` (`none` here), while `get_display_length` of the same line still
counts one cell.  The claim's positive parts do hold: every token of the
closed set, upper- or lower-case, encodes to its single code; an ASCII
character whose uppercase is absent from the table encodes to blank; and an
unmatched brace sequence falls through to per-character encoding with the
braces themselves encoding as 0. -/
theorem claim_C9_codec_keyerror :
    text_to_codes_checked kelvinLine = none ∧
    get_display_length kelvinLine = 1 ∧
    (∀ p ∈ SPECIAL_CODES,
       text_to_codes_checked (ofString ("\x7b" ++ p.1 ++ "\x7d")) = some [p.2]) ∧
    (∀ p ∈ SPECIAL_CODES,
       text_to_codes_checked ((ofString ("\x7b" ++ p.1 ++ "\x7d")).map lowerChar) =
         some [p.2]) ∧
    (∀ c : Nat, c < 128 → ∀ u : Nat, pyUpper c = [u] →
       CHAR_CODES.find? (fun q => q.1 == u) = none →
       text_to_codes_checked [c] = some [0]) ∧
    text_to_codes_checked (ofString "{nope}") = some [0, 14, 15, 16, 5, 0] := by
  refine ⟨by decide, by decide, by decide, by decide, ?_, by decide⟩
  intro c _ u hu hfind
  have hs : upperString [c] = [u] := by
    simp [upperString, hu]
  unfold text_to_codes_checked
  rw [hs]
  show text_to_codes_checked_fuel 1 [u] = some [0]
  simp only [text_to_codes_checked_fuel, matchSpecialGroup_singleton]
  unfold charCode
  rw [hfind]
  rfl

theorem claim_C9_codec_keyerror_witness :
    text_to_codes_checked (ofString ("\x7b" ++ "RED" ++ "\x7d")) = some [63] ∧
    text_to_codes_checked [126] = some [0] :=
  ⟨claim_C9_codec_keyerror.2.2.1 ("RED", 63) (by decide),
   claim_C9_codec_keyerror.2.2.2.2.1 126 (by decide) 126 (by decide) (by decide)⟩

/-- The row loop of `create_board` with the `KeyError` of `text_to_codes`
kept fallible and propagating, as in the source. -/
def rowsChecked (center : Bool) : List (List Nat) → Option (List (List Nat))
  | [] => some []
  | l :: ls =>
    match text_to_codes_checked l with
    | none => none
    | some cs => (rowsChecked center ls).map (fun rs => placeCodes cs center :: rs)

/-- characters.py `create_board` with the reachable `KeyError` propagating. -/
def create_board_checked (lines : List (List Nat)) (center : Bool) :
    Option (List (List Nat)) :=
  (rowsChecked center (lines.take ROWS)).map
    (fun rows => rows ++ List.replicate (ROWS - (lines.take ROWS).length) blankRow)

/-- characters.py `format_message` with the reachable `KeyError` propagating
(wrapping and vertical padding never raise; only the encoding inside
`create_board` can). -/
def format_message_checked (text : List Nat) (center : Bool) :
    Option (List (List Nat)) :=
  let lines := (wrap_text text COLS).take ROWS
  let padded :=
    if center = true ∧ lines.length < ROWS then
      List.replicate ((ROWS - lines.length) / 2) [] ++ lines
    else lines
  create_board_checked padded center

theorem rowsChecked_some (center : Bool) :
    ∀ (ls rows : List (List Nat)), rowsChecked center ls = some rows →
      rows.length = ls.length ∧ ∀ r ∈ rows, ∃ cs, r = placeCodes cs center := by
  intro ls
  induction ls with
  | nil =>
      intro rows h
      simp only [rowsChecked, Option.some.injEq] at h
      subst h
      exact ⟨rfl, by simp⟩
  | cons l ls ih =>
      intro rows h
      simp only [rowsChecked] at h
      cases hc : text_to_codes_checked l with
      | none => rw [hc] at h; simp at h
      | some cs =>
          rw [hc] at h
          cases hr : rowsChecked center ls with
          | none => rw [hr] at h; simp at h
          | some rs =>
              rw [hr] at h
              simp only [Option.map_some', Option.some.injEq] at h
              subst h
              obtain ⟨hlen, hmem⟩ := ih rs hr
              refine ⟨by simp [hlen], ?_⟩
              intro r hr2
              rcases List.mem_cons.mp hr2 with rfl | hmem2
              · exact ⟨cs, rfl⟩
              · exact hmem r hmem2

/-- Claim C1: refuted on the program.  On the line `kelvinLine` the
`KeyError` of `text_to_codes` propagates out of both `create_board` and
`format_message`, so no grid at all is returned for that input.  Whenever a
grid is returned, it does have exactly 6 rows of exactly 22 codes each — a
jagged or resized grid is never produced. -/
theorem claim_C1_grid_dimensions_on_return :
    (∀ (lines : List (List Nat)) (center : Bool) (grid : List (List Nat)),
       create_board_checked lines center = some grid →
       grid.length = 6 ∧ ∀ row ∈ grid, row.length = 22) ∧
    (∀ (text : List Nat) (center : Bool) (grid : List (List Nat)),
       format_message_checked text center = some grid →
       grid.length = 6 ∧ ∀ row ∈ grid, row.length = 22) ∧
    create_board_checked [kelvinLine] true = none ∧
    format_message_checked kelvinLine true = none := by
  have hcb : ∀ (lines : List (List Nat)) (center : Bool) (grid : List (List Nat)),
      create_board_checked lines center = some grid →
      grid.length = 6 ∧ ∀ row ∈ grid, row.length = 22 := by
    intro lines center grid h
    unfold create_board_checked at h
    cases hr : rowsChecked center (lines.take ROWS) with
    | none => rw [hr] at h; simp at h
    | some rows =>
        rw [hr] at h
        simp only [Option.map_some', Option.some.injEq] at h
        subst h
        obtain ⟨hlen, hmem⟩ := rowsChecked_some center _ rows hr
        constructor
        · rw [List.length_append, List.length_replicate, hlen, List.length_take]
          simp only [ROWS]
          omega
        · intro row hrow
          rcases List.mem_append.mp hrow with h1 | h2
          · obtain ⟨cs, rfl⟩ := hmem row h1
            exact placeCodes_length cs center
          · rw [List.eq_of_mem_replicate h2]
            rfl
  refine ⟨hcb, ?_, by decide, by decide⟩
  intro text center grid h
  unfold format_message_checked at h
  exact hcb _ center grid h

theorem claim_C1_grid_dimensions_on_return_witness :
    ((create_board_checked [ofString "HI"] true).getD []).length = 6 ∧
    ((format_message_checked (ofString "HI") true).getD []).length = 6 :=
  ⟨(claim_C1_grid_dimensions_on_return.1 [ofString "HI"] true
      ((create_board_checked [ofString "HI"] true).getD []) (by decide)).1,
   (claim_C1_grid_dimensions_on_return.2.1 (ofString "HI") true
      ((format_message_checked (ofString "HI") true).getD []) (by decide)).1⟩

theorem ciEqList_length : ∀ as bs : List Nat, ciEqList as bs = true → as.length = bs.length := by
  intro as
  induction as with
  | nil =>
      intro bs h
      cases bs with
      | nil => rfl
      | cons b bs => simp [ciEqList] at h
  | cons a as ih =>
      intro bs h
      cases bs with
      | nil => simp [ciEqList] at h
      | cons b bs =>
          simp only [ciEqList, Bool.and_eq_true] at h
          simp only [List.length_cons, ih bs h.2]

theorem ciEqList_append_space :
    ∀ (xs name ys : List Nat), (∀ t ∈ name, reCharMatch 32 t = false) →
      xs.length < name.length → ciEqList (xs ++ 32 :: ys) name = false := by
  intro xs
  induction xs with
  | nil =>
      intro name ys hname hlen
      cases name with
      | nil => simp at hlen
      | cons t ts =>
          simp only [List.nil_append, ciEqList,
            hname t (List.mem_cons_self t ts), Bool.false_and]
  | cons x xs ih =>
      intro name ys hname hlen
      cases name with
      | nil => simp at hlen
      | cons t ts =>
          simp only [List.cons_append, ciEqList, Bool.and_eq_false_iff]
          cases hx : reCharMatch x t
          · left; rfl
          · right
            exact ih ts ys (fun u hu => hname u (List.mem_cons_of_mem t hu))
              (by simp only [List.length_cons] at hlen ⊢; omega)

theorem matchToken_append_space (name : List Nat)
    (hns : ∀ t ∈ name, reCharMatch 32 t = false) (c : Nat) (a b : List Nat) :
    matchToken (c :: (a ++ 32 :: b)) name = matchToken (c :: a) name := by
  simp only [matchToken]
  rcases le_or_lt name.length a.length with hle | hlt
  · rw [List.take_append_of_le_length hle, List.drop_append_of_le_length hle]
    rcases Nat.lt_or_ge name.length a.length with hlt2 | hge2
    · rw [List.drop_eq_getElem_cons hlt2]
      rfl
    · have heq : name.length = a.length := by omega
      have hde : a.drop name.length = [] := by
        apply List.drop_eq_nil_of_le
        omega
      rw [hde]
      simp
  · have hta : a.take name.length = a := List.take_of_length_le (by omega)
    have hfa : ciEqList a name = false := by
      cases h : ciEqList a name
      · rfl
      · have := ciEqList_length a name h
        omega
    rw [List.take_append_eq_append_take, hta]
    have htc : (32 :: b).take (name.length - a.length) =
        32 :: b.take (name.length - a.length - 1) := by
      have h1 : name.length - a.length = (name.length - a.length - 1) + 1 := by omega
      rw [h1]
      rfl
    rw [htc, ciEqList_append_space a name _ hns hlt, hfa]
    simp

theorem special_names_facts :
    ∀ p ∈ SPECIAL_CODES, ofString p.1 ≠ [] ∧
      ∀ t ∈ ofString p.1, reCharMatch 32 t = false := by
  decide

theorem matchSpecial_append_space (c : Nat) (a b : List Nat) :
    matchSpecial (c :: (a ++ 32 :: b)) = matchSpecial (c :: a) := by
  unfold matchSpecial
  rw [find?_congr SPECIAL_CODES _ _ (fun p hp =>
    matchToken_append_space (ofString p.1) (special_names_facts p hp).2 c a b)]

theorem matchSpecial_some_le {c : Nat} {a : List Nat} {code k : Nat}
    (h : matchSpecial (c :: a) = some (code, k)) : k ≤ a.length + 1 := by
  unfold matchSpecial at h
  cases hf : SPECIAL_CODES.find? (fun p => matchToken (c :: a) (ofString p.1)) with
  | none => rw [hf] at h; simp at h
  | some p =>
      rw [hf] at h
      simp only [Option.map_some', Option.some.injEq, Prod.mk.injEq] at h
      have htk := List.find?_some hf
      simp only [matchToken, Bool.and_eq_true, beq_iff_eq] at htk
      have hlen : (a.take (ofString p.1).length).length = (ofString p.1).length :=
        ciEqList_length _ _ htk.1.2
      rw [List.length_take] at hlen
      have hle : (ofString p.1).length ≤ a.length := by omega
      have hlt : (ofString p.1).length < a.length := by
        rcases Nat.lt_or_ge (ofString p.1).length a.length with h1 | h1
        · exact h1
        · have heq : (ofString p.1).length = a.length := by omega
          have hde : a.drop (ofString p.1).length = [] :=
            List.drop_eq_nil_of_le (by omega)
          rw [hde] at htk
          simp at htk
      omega

theorem matchSpecial_32 (rest : List Nat) : matchSpecial (32 :: rest) = none := by
  simp [matchSpecial, SPECIAL_CODES, matchToken]

theorem gdl_append_space :
    ∀ (n : Nat) (a : List Nat), a.length ≤ n → ∀ b : List Nat,
      get_display_length (a ++ 32 :: b) =
        get_display_length a + 1 + get_display_length b := by
  intro n
  induction n with
  | zero =>
      intro a hn b
      have : a = [] := List.length_eq_zero.mp (Nat.le_zero.mp hn)
      subst this
      rw [List.nil_append, get_display_length_cons_none (matchSpecial_32 b),
        get_display_length_nil]
  | succ n ih =>
      intro a hn b
      cases a with
      | nil =>
          rw [List.nil_append, get_display_length_cons_none (matchSpecial_32 b),
            get_display_length_nil]
      | cons c a2 =>
          simp only [List.length_cons] at hn
          have hca : c :: (a2 ++ 32 :: b) = (c :: a2) ++ 32 :: b := rfl
          have hms : matchSpecial (c :: (a2 ++ 32 :: b)) = matchSpecial (c :: a2) :=
            matchSpecial_append_space c a2 b
          cases h : matchSpecial (c :: a2) with
          | none =>
              rw [List.cons_append, get_display_length_cons_none (hms.trans h),
                get_display_length_cons_none h, ih a2 (by omega) b]
              omega
          | some ck =>
              obtain ⟨code, k⟩ := ck
              have h2 := matchSpecial_two_le _ _ _ h
              have hk := matchSpecial_some_le h
              rw [List.cons_append, get_display_length_cons_some (hms.trans h),
                get_display_length_cons_some h]
              have hdrop : (c :: (a2 ++ 32 :: b)).drop k = ((c :: a2).drop k) ++ 32 :: b := by
                rw [hca, List.drop_append_of_le_length (by simp only [List.length_cons]; omega)]
              rw [hdrop, ih ((c :: a2).drop k)
                (by simp only [List.length_drop, List.length_cons]; omega) b]
              omega

theorem joinSp_single (x : List Nat) : joinSp [x] = x := by
  simp [joinSp, List.intercalate]

theorem joinSp_cons (x : List Nat) (l : List (List Nat)) (h : l ≠ []) :
    joinSp (x :: l) = x ++ 32 :: joinSp l := by
  cases l with
  | nil => exact absurd rfl h
  | cons y t => simp [joinSp, List.intercalate]

theorem joinSp_append (xs ys : List (List Nat)) (hx : xs ≠ []) (hy : ys ≠ []) :
    joinSp (xs ++ ys) = joinSp xs ++ 32 :: joinSp ys := by
  induction xs with
  | nil => exact absurd rfl hx
  | cons x xs2 ih =>
      cases xs2 with
      | nil =>
          rw [joinSp_single, List.cons_append, List.nil_append, joinSp_cons x ys hy]
      | cons z t =>
          rw [List.cons_append,
            joinSp_cons x ((z :: t) ++ ys) (by simp),
            joinSp_cons x (z :: t) (by simp),
            ih (by simp)]
          simp

theorem gdl_joinSp_append_single (ws : List (List Nat)) (w : List Nat) (h : ws ≠ []) :
    get_display_length (joinSp (ws ++ [w])) =
      get_display_length (joinSp ws) + 1 + get_display_length w := by
  rw [joinSp_append ws [w] h (by simp), joinSp_single,
    gdl_append_space (joinSp ws).length (joinSp ws) (Nat.le_refl _) w]

theorem gdl_le_joinSp_of_mem :
    ∀ (ws : List (List Nat)) (w : List Nat), w ∈ ws →
      get_display_length w ≤ get_display_length (joinSp ws) := by
  intro ws
  induction ws with
  | nil => intro w h; simp at h
  | cons x t ih =>
      intro w hw
      rcases List.mem_cons.mp hw with rfl | hmem
      · cases t with
        | nil => rw [joinSp_single]
        | cons z zs =>
            rw [joinSp_cons w (z :: zs) (by simp),
              gdl_append_space w.length w (Nat.le_refl _) (joinSp (z :: zs))]
            omega
      · have htne : t ≠ [] := by
          intro he
          rw [he] at hmem
          simp at hmem
        rw [joinSp_cons x t htne,
          gdl_append_space x.length x (Nat.le_refl _) (joinSp t)]
        have := ih w hmem
        omega

theorem flatten_ne_nil {α : Type} (G : List (List α)) (hG : G ≠ [])
    (h : ∀ g ∈ G, g ≠ []) : G.flatten ≠ [] := by
  cases G with
  | nil => exact absurd rfl hG
  | cons g t =>
      simp only [List.flatten_cons, ne_eq, List.append_eq_nil]
      intro he
      exact h g (List.mem_cons_self g t) he.1

theorem joinSp_map_flatten :
    ∀ G : List (List (List Nat)), (∀ g ∈ G, g ≠ []) →
      joinSp (G.map joinSp) = joinSp G.flatten := by
  intro G
  induction G with
  | nil => intro _; rfl
  | cons g t ih =>
      intro h
      cases t with
      | nil =>
          simp only [List.map_cons, List.map_nil, List.flatten_cons, List.flatten_nil,
            List.append_nil]
          rw [joinSp_single]
      | cons z zs =>
          have hjne : (z :: zs).flatten ≠ [] :=
            flatten_ne_nil (z :: zs) (by simp)
              fun g2 hg => h g2 (List.mem_cons_of_mem _ hg)
          rw [List.map_cons, List.flatten_cons,
            joinSp_cons (joinSp g) ((z :: zs).map joinSp) (by simp),
            ih fun g2 hg => h g2 (List.mem_cons_of_mem _ hg),
            joinSp_append g (z :: zs).flatten (h g (List.mem_cons_self g _)) hjne]

/-- Invariant of the `wrap_text` word loop after processing the words `ws`:
the flushed lines are the space-joins of a partition `G` of the processed
words (minus the pending `cur`), every flushed line fits in `width` unless it
is a single over-long word, and `current_length` tracks the display length of
the pending line. -/
def WrapInv (width : Nat) (ws lines cur : List (List Nat)) (clen : Nat) : Prop :=
  ∃ G : List (List (List Nat)),
    lines = G.map joinSp ∧
    G.flatten ++ cur = ws ∧
    (∀ g ∈ G, g ≠ [] ∧
      (get_display_length (joinSp g) ≤ width ∨
        ∃ u, g = [u] ∧ width < get_display_length u)) ∧
    (cur = [] → clen = 0) ∧
    (cur ≠ [] →
      clen = get_display_length (joinSp cur) ∧
      (clen ≤ width ∨ ∃ u, cur = [u] ∧ width < get_display_length u))

theorem wrap_step_inv {width : Nat} {ws lines cur : List (List Nat)} {clen : Nat}
    {w : List Nat} (h : WrapInv width ws lines cur clen)
    (lines2 cur2 : List (List Nat)) (clen2 : Nat)
    (heq : wrap_step width (lines, cur, clen) w = (lines2, cur2, clen2)) :
    WrapInv width (ws ++ [w]) lines2 cur2 clen2 := by
  obtain ⟨G, hlines, hjoin, hG, hemp, hne⟩ := h
  unfold wrap_step at heq
  dsimp only at heq
  cases cur with
  | nil =>
      have hclen : clen = 0 := hemp rfl
      subst hclen
      simp only [List.isEmpty_nil, if_true, List.nil_append, List.length_cons,
        List.length_nil, Nat.zero_add, Nat.add_zero, gt_iff_lt, Nat.lt_irrefl,
        if_false, ite_self, Prod.mk.injEq] at heq
      obtain ⟨h1, h2, h3⟩ := heq
      subst h1; subst h2; subst h3
      refine ⟨G, hlines, ?_, hG, by simp, ?_⟩
      · rw [List.append_nil] at hjoin
        rw [hjoin]
      · intro _
        refine ⟨by rw [joinSp_single], ?_⟩
        rcases le_or_lt (get_display_length w) width with hle | hlt
        · exact Or.inl hle
        · exact Or.inr ⟨w, rfl, hlt⟩
  | cons c0 t0 =>
      obtain ⟨hclen, hprop⟩ := hne (by simp)
      simp only [List.isEmpty_cons, Bool.false_eq_true, if_false] at heq
      by_cases hcond : clen + get_display_length w + 1 ≤ width
      · rw [if_pos hcond] at heq
        have hlen1 : ((c0 :: t0) ++ [w]).length > 1 := by
          simp
        rw [if_pos hlen1] at heq
        simp only [Prod.mk.injEq] at heq
        obtain ⟨h1, h2, h3⟩ := heq
        subst h1; subst h2; subst h3
        refine ⟨G, hlines, ?_, hG, by simp, ?_⟩
        · rw [← hjoin]
          simp
        · intro _
          constructor
          · rw [gdl_joinSp_append_single (c0 :: t0) w (by simp), ← hclen]
            omega
          · exact Or.inl hcond
      · rw [if_neg hcond] at heq
        simp only [Prod.mk.injEq] at heq
        obtain ⟨h1, h2, h3⟩ := heq
        subst h1; subst h2; subst h3
        refine ⟨G ++ [c0 :: t0], ?_, ?_, ?_, by simp, ?_⟩
        · rw [List.map_append, hlines]
          rfl
        · rw [List.flatten_append, List.flatten_cons, List.flatten_nil,
            List.append_nil, hjoin]
        · intro g hg
          rcases List.mem_append.mp hg with hg1 | hg2
          · exact hG g hg1
          · have : g = c0 :: t0 := by simpa using hg2
            subst this
            refine ⟨by simp, ?_⟩
            rcases hprop with hp | ⟨u, hu, hlt⟩
            · exact Or.inl (hclen ▸ hp)
            · exact Or.inr ⟨u, hu, hlt⟩
        · intro _
          refine ⟨by rw [joinSp_single], ?_⟩
          rcases le_or_lt (get_display_length w) width with hle | hlt
          · exact Or.inl hle
          · exact Or.inr ⟨w, rfl, hlt⟩


theorem wrap_fold_inv (width : Nat) :
    ∀ (ws2 ws1 lines cur : List (List Nat)) (clen : Nat),
      WrapInv width ws1 lines cur clen →
      WrapInv width (ws1 ++ ws2)
        (ws2.foldl (wrap_step width) (lines, cur, clen)).1
        (ws2.foldl (wrap_step width) (lines, cur, clen)).2.1
        (ws2.foldl (wrap_step width) (lines, cur, clen)).2.2 := by
  intro ws2
  induction ws2 with
  | nil =>
      intro ws1 lines cur clen h
      simpa using h
  | cons w ws ih =>
      intro ws1 lines cur clen h
      rw [List.foldl_cons]
      have h2 := wrap_step_inv h (wrap_step width (lines, cur, clen) w).1
        (wrap_step width (lines, cur, clen) w).2.1
        (wrap_step width (lines, cur, clen) w).2.2 rfl
      have h3 := ih (ws1 ++ [w]) _ _ _ h2
      rw [List.append_assoc] at h3
      simpa using h3

theorem wrap_text_groups (text : List Nat) (width : Nat) :
    ∃ G : List (List (List Nat)),
      wrap_text text width = G.map joinSp ∧
      G.flatten = splitWords text ∧
      ∀ g ∈ G, g ≠ [] ∧
        (get_display_length (joinSp g) ≤ width ∨
          ∃ u, g = [u] ∧ width < get_display_length u) := by
  have h0 : WrapInv width [] [] [] 0 :=
    ⟨[], rfl, rfl, by simp, fun _ => rfl, by simp⟩
  have h := wrap_fold_inv width (splitWords text) [] [] [] 0 h0
  rw [List.nil_append] at h
  obtain ⟨G, hlines, hjoin, hG, hemp, hne⟩ := h
  unfold wrap_text
  dsimp only
  by_cases hc : ((splitWords text).foldl (wrap_step width) ([], [], 0)).2.1 = []
  · rw [if_pos (by rw [hc]; rfl)]
    refine ⟨G, hlines, ?_, hG⟩
    rw [hc, List.append_nil] at hjoin
    exact hjoin
  · rw [if_neg (by simpa [List.isEmpty_iff] using hc)]
    obtain ⟨hclen, hprop⟩ := hne hc
    refine ⟨G ++ [((splitWords text).foldl (wrap_step width) ([], [], 0)).2.1], ?_, ?_, ?_⟩
    · rw [List.map_append, hlines]
      rfl
    · rw [List.flatten_append, List.flatten_cons, List.flatten_nil,
        List.append_nil, hjoin]
    · intro g hg
      rcases List.mem_append.mp hg with hg1 | hg2
      · exact hG g hg1
      · have hge : g = ((splitWords text).foldl (wrap_step width) ([], [], 0)).2.1 := by
          simpa using hg2
        subst hge
        refine ⟨hc, ?_⟩
        rcases hprop with hp | ⟨u, hu, hlt⟩
        · exact Or.inl (hclen ▸ hp)
        · exact Or.inr ⟨u, hu, hlt⟩

theorem splitWords_words :
    ∀ (n : Nat) (cs : List Nat), cs.length ≤ n →
      ∀ w ∈ splitWords cs, w ≠ [] := by
  intro n
  induction n with
  | zero =>
      intro cs hn w hw
      have : cs = [] := List.length_eq_zero.mp (Nat.le_zero.mp hn)
      subst this
      simp [splitWords_nil] at hw
  | succ n ih =>
      intro cs hn w hw
      cases cs with
      | nil => simp [splitWords_nil] at hw
      | cons c rest =>
          simp only [List.length_cons] at hn
          by_cases hc : isPySpace c = true
          · rw [splitWords_cons_space hc] at hw
            exact ih rest (by omega) w hw
          · rw [splitWords_cons_word (by simpa using hc)] at hw
            rcases List.mem_cons.mp hw with rfl | hmem
            · simp
            · exact ih (rest.dropWhile (fun d => !isPySpace d))
                (le_trans (List.dropWhile_sublist _).length_le (by omega)) w hmem

/-- Claim C7: every line produced by `wrap_text` fits in `width` display cells,
except that a word of the input whose own display length exceeds `width` is
placed alone, unmodified, on a line of its own; and conversely every such
over-long word does appear as its own line.  In particular
`wrap_text "A B C" 22 = ["A B C"]`. -/
theorem claim_C7_wrap_width :
    (∀ (text : List Nat) (width : Nat), ∀ l ∈ wrap_text text width,
       get_display_length l ≤ width ∨
         (l ∈ splitWords text ∧ width < get_display_length l)) ∧
    (∀ (text : List Nat) (width : Nat), ∀ w ∈ splitWords text,
       width < get_display_length w → w ∈ wrap_text text width) ∧
    wrap_text (ofString "A B C") 22 = [ofString "A B C"] := by
  refine ⟨?_, ?_, by decide⟩
  · intro text width l hl
    obtain ⟨G, hlines, hjoin, hG⟩ := wrap_text_groups text width
    rw [hlines] at hl
    obtain ⟨g, hgG, rfl⟩ := List.mem_map.mp hl
    obtain ⟨hgne, hgprop⟩ := hG g hgG
    rcases hgprop with hp | ⟨u, hu, hlt⟩
    · exact Or.inl hp
    · subst hu
      rw [joinSp_single]
      refine Or.inr ⟨?_, hlt⟩
      rw [← hjoin]
      exact List.mem_flatten_of_mem hgG (by simp)
  · intro text width w hw hlt
    obtain ⟨G, hlines, hjoin, hG⟩ := wrap_text_groups text width
    rw [← hjoin] at hw
    obtain ⟨g, hgG, hwg⟩ := List.mem_flatten.mp hw
    obtain ⟨hgne, hgprop⟩ := hG g hgG
    rcases hgprop with hp | ⟨u, hu, hult⟩
    · exact absurd (le_trans (gdl_le_joinSp_of_mem g w hwg) hp) (by omega)
    · subst hu
      have : w = u := by simpa using hwg
      subst this
      rw [hlines]
      exact List.mem_map.mpr ⟨[w], hgG, joinSp_single w⟩

theorem claim_C7_wrap_width_witness :
    (get_display_length (ofString "A B C") ≤ 22 ∨
      (ofString "A B C" ∈ splitWords (ofString "A B C") ∧
        22 < get_display_length (ofString "A B C"))) ∧
    ofString "WWWWWWWWWWWWWWWWWWWWWWWWW" ∈
      wrap_text (ofString "A WWWWWWWWWWWWWWWWWWWWWWWWW B") 22 :=
  ⟨claim_C7_wrap_width.1 (ofString "A B C") 22 (ofString "A B C") (by decide),
   claim_C7_wrap_width.2.1 (ofString "A WWWWWWWWWWWWWWWWWWWWWWWWW B") 22
     (ofString "WWWWWWWWWWWWWWWWWWWWWWWWW") (by decide) (by decide)⟩

/-- Claim C10: joining the lines produced by `wrap_text` with single blanks yields
exactly the blank-join of `text.split()` — wrapping never drops, duplicates,
reorders or alters a word — and no produced line is empty. -/
theorem claim_C10_wrap_words_preserved :
    ∀ (text : List Nat) (width : Nat),
      joinSp (wrap_text text width) = joinSp (splitWords text) ∧
      ∀ l ∈ wrap_text text width, l ≠ [] := by
  intro text width
  obtain ⟨G, hlines, hjoin, hG⟩ := wrap_text_groups text width
  constructor
  · rw [hlines, joinSp_map_flatten G (fun g hg => (hG g hg).1), hjoin]
  · intro l hl
    rw [hlines] at hl
    obtain ⟨g, hgG, rfl⟩ := List.mem_map.mp hl
    obtain ⟨hgne, -⟩ := hG g hgG
    cases g with
    | nil => exact absurd rfl hgne
    | cons u t =>
        have humem : u ∈ splitWords text := by
          rw [← hjoin]
          exact List.mem_flatten_of_mem hgG (List.mem_cons_self u t)
        have hune : u ≠ [] :=
          splitWords_words text.length text (Nat.le_refl _) u humem
        cases t with
        | nil =>
            rw [joinSp_single]
            exact hune
        | cons z zs =>
            rw [joinSp_cons u (z :: zs) (by simp)]
            simp

theorem claim_C10_wrap_words_preserved_witness :
    ofString "A B" ≠ ([] : List Nat) :=
  (claim_C10_wrap_words_preserved (ofString "A B") 22).2 (ofString "A B") (by decide)

/-- storage.py `ScheduledMessage` (a trigger).  Timestamps are modelled as
natural numbers. -/
structure ScheduledMessage where
  id : Nat
  name : String
  message_type : String
  content : Option String
  cron_expression : String
  enabled : Bool
  last_run : Option Nat
deriving DecidableEq

/-- storage.py `MessageLog` row as written by `log_message` (the execution
record: content-type tag, rendered content, success flag). -/
structure LogEntry where
  message_type : String
  content : String
  success : Bool
deriving DecidableEq

/-- Tracked flight as used by `check_active_flights` (`flight_number`,
`flight_date`, `enabled`; dates are modelled as natural numbers).
Modelled from the spec: the `TrackedFlight` dataclass and
`Storage.get_flights` are not part of the sources provided under src/
(web.py imports them from storage), so the record carries exactly the
fields the scheduler reads. -/
structure TrackedFlight where
  id : Nat
  flight_number : String
  flight_date : Nat
  enabled : Bool
deriving DecidableEq

/-- The storage state (scheduled_messages and message_log tables) plus the
scheduler's in-memory `_last_flight_status` dict and the tracked flights. -/
structure SchedState where
  messages : List ScheduledMessage
  flights : List TrackedFlight
  last_flight_status : List (String × String)
  log : List LogEntry
deriving DecidableEq

/-- The scheduler's collaborators (transport, fetchers, croniter), modelled
as oracles.  Fallible calls return `Except`: `.error` models a raised
exception, the payload types follow the interfaces in §6 of the spec.
`flight_fetch` returns an `Option` and no error because
`FlightFetcher.fetch` catches every exception and returns `None`
(fetchers.py line 508); the fetched `FlightStatus` is represented by its
`status` string, the only field the scheduler inspects, and is passed
whole to `flight_status_format` (its `format_for_board`). -/
structure Env where
  send_message : String → Except String Bool
  send_lines : List String → Except String Bool
  weather_fetch : Except String (Option String)
  weather_format : String → Except String (List String)
  stocks_fetch : Except String (Option String)
  stocks_format : String → Except String (List String)
  calendar_fetch : Except String String
  calendar_format : String → Except String (List String)
  news_fetch : Except String (Option String)
  news_format : String → Except String (List String)
  countdowns_format : Except String (List String)
  flights_format : Except String (List String)
  cron_next : String → Nat → Except String Nat
  flight_fetch : String → Nat → Option String
  flight_status_format : String → TrackedFlight → List String

/-- The `try` block of `MessageScheduler.execute_message`: dispatch on
`message_type`, fetch, format, send; returns `(success, content)` on normal
completion and `.error e` when any call raises.  In every branch the send is
the last fallible statement, so a raise always leaves `success = False`. -/
def try_body (env : Env) (msg : ScheduledMessage) : Except String (Bool × String) :=
  if msg.message_type = "text" then do
    let content := msg.content.getD ""
    let s ← env.send_message content
    pure (s, content)
  else if msg.message_type = "weather" then do
    match ← env.weather_fetch with
    | some w => do
        let lines ← env.weather_format w
        let s ← env.send_lines lines
        pure (s, String.intercalate "\n" lines)
    | none => pure (false, "")
  else if msg.message_type = "stocks" then do
    match ← env.stocks_fetch with
    | some w => do
        let lines ← env.stocks_format w
        let s ← env.send_lines lines
        pure (s, String.intercalate "\n" lines)
    | none => pure (false, "")
  else if msg.message_type = "calendar" then do
    let events ← env.calendar_fetch
    let lines ← env.calendar_format events
    let s ← env.send_lines lines
    pure (s, String.intercalate "\n" lines)
  else if msg.message_type = "news" then do
    match ← env.news_fetch with
    | some w => do
        let lines ← env.news_format w
        let s ← env.send_lines lines
        pure (s, String.intercalate "\n" lines)
    | none => pure (false, "")
  else if msg.message_type = "countdowns" then do
    let lines ← env.countdowns_format
    let s ← env.send_lines lines
    pure (s, String.intercalate "\n" lines)
  else if msg.message_type = "flights" then do
    let lines ← env.flights_format
    let s ← env.send_lines lines
    pure (s, String.intercalate "\n" lines)
  else
    pure (false, "")

/-- The `(success, content)` pair reaching the logging code of
`execute_message`: the `try` result on normal completion; on an exception
`success` stays `False` and `content` becomes `str(e)`. -/
def exec_outcome (env : Env) (msg : ScheduledMessage) : Bool × String :=
  match try_body env msg with
  | .ok r => r
  | .error e => (false, e)

/-- storage.py `update_last_run`: `UPDATE scheduled_messages SET last_run = now
WHERE id = ?`. -/
def update_last_run (msgs : List ScheduledMessage) (i now : Nat) :
    List ScheduledMessage :=
  msgs.map fun m => if m.id = i then { m with last_run := some now } else m

/-- storage.py `log_message`: append one row to `message_log`. -/
def log_message (st : SchedState) (mt content : String) (success : Bool) :
    SchedState :=
  { st with log := st.log ++ [⟨mt, content, success⟩] }

/-- scheduler.py `MessageScheduler.execute_message`: run the dispatch inside
`try/except`, always log exactly one record, and update `last_run` only when
the send succeeded.  `now` is the wall-clock instant used by
`storage.update_last_run`. -/
def execute_message (env : Env) (st : SchedState) (msg : ScheduledMessage)
    (now : Nat) : SchedState × Bool :=
  let r := exec_outcome env msg
  let st1 := log_message st msg.message_type r.2 r.1
  let st2 :=
    if r.1 then { st1 with messages := update_last_run st1.messages msg.id now }
    else st1
  (st2, r.1)

/-- The sentinel `datetime(2000, 1, 1)` used when a trigger has never fired,
as a Unix timestamp. -/
def epoch2000 : Nat := 946684800

/-- The due check of `check_and_run_scheduled` for one trigger:
`croniter(msg.cron_expression, msg.last_run or datetime(2000,1,1))
 .get_next(datetime) <= now`, with any raised exception making the trigger
not due for this pass. -/
def isDue (env : Env) (msg : ScheduledMessage) (now : Nat) : Bool :=
  match env.cron_next msg.cron_expression (msg.last_run.getD epoch2000) with
  | .ok next_run => decide (next_run ≤ now)
  | .error _ => false

/-- scheduler.py `MessageScheduler.check_and_run_scheduled`: snapshot the
enabled triggers, then for each one compute the next cron occurrence after
`last_run` (or the epoch sentinel) inside `try/except` and execute it when
due; a per-trigger exception only skips that trigger. -/
def check_and_run_scheduled (env : Env) (st : SchedState) (now : Nat) :
    SchedState :=
  (st.messages.filter (fun m => m.enabled)).foldl
    (fun s msg =>
      match env.cron_next msg.cron_expression (msg.last_run.getD epoch2000) with
      | .ok next_run => if next_run ≤ now then (execute_message env s msg now).1 else s
      | .error _ => s)
    st

/-- The key of the in-memory `_last_flight_status` dict:
`f"{flight_number}_{flight_date}"`. -/
def flightKey (f : TrackedFlight) : String :=
  f.flight_number ++ "_" ++ toString f.flight_date

/-- Python dict assignment `d[k] = v` on an association list. -/
def dictSet (d : List (String × String)) (k v : String) :
    List (String × String) :=
  (k, v) :: d.filter (fun p => decide (p.1 ≠ k))

/-- The body of the `check_active_flights` loop for one tracked flight:
skip flights not scheduled today, fetch the current status (the fetcher
returns `None` instead of raising), compare with the in-memory last-observed
status for the flight's key, and on a change (or first observation) format,
send, log, and remember the new status.  A raise inside the `try` (modelled
at the send) skips the log append and the memory update. -/
def flight_step (env : Env) (today : Nat) (st : SchedState)
    (f : TrackedFlight) : SchedState :=
  if f.flight_date ≠ today then st
  else
    match env.flight_fetch f.flight_number f.flight_date with
    | none => st
    | some status =>
      if List.lookup (flightKey f) st.last_flight_status ≠ some status then
        match env.send_lines (env.flight_status_format status f) with
        | .error _ => st
        | .ok success =>
            { st with
              log := st.log ++
                [⟨"flight_auto",
                  String.intercalate "\n" (env.flight_status_format status f),
                  success⟩],
              last_flight_status :=
                dictSet st.last_flight_status (flightKey f) status }
      else st

/-- scheduler.py `MessageScheduler.check_active_flights`.
`storage.get_flights(enabled_only=True, include_past=False)` is modelled
from the spec (the accessor is not in the provided sources): it returns the
enabled tracked flights whose date is not in the past. -/
def check_active_flights (env : Env) (st : SchedState) (today : Nat) :
    SchedState :=
  (st.flights.filter (fun f => f.enabled && decide (today ≤ f.flight_date))).foldl
    (flight_step env today) st

/-- An all-benign oracle environment used for concrete witnesses. -/
def env0 : Env :=
  { send_message := fun _ => .ok true, send_lines := fun _ => .ok true,
    weather_fetch := .ok none, weather_format := fun _ => .ok [],
    stocks_fetch := .ok none, stocks_format := fun _ => .ok [],
    calendar_fetch := .ok "", calendar_format := fun _ => .ok [],
    news_fetch := .ok none, news_format := fun _ => .ok [],
    countdowns_format := .ok [], flights_format := .ok [],
    cron_next := fun _ t => .ok (t + 1),
    flight_fetch := fun _ _ => none, flight_status_format := fun _ _ => [] }

/-- A concrete text trigger (the "Good Morning" default of
`add_default_schedules`). -/
def msg0 : ScheduledMessage :=
  ⟨1, "Good Morning", "text", some "Good Morning!", "0 6 * * *", true, none⟩

/-- A concrete storage state holding just `msg0`. -/
def st0 : SchedState := ⟨[msg0], [], [], []⟩

example :
    (check_and_run_scheduled env0 st0 (epoch2000 + 5)).log =
      [⟨"text", "Good Morning!", true⟩] := by decide

/-- Claim C3: `execute_message` appends exactly one execution record, carrying the
send's success flag, no matter how the dispatch ends; and the trigger's
`last_run` is updated exactly when the dispatch succeeded — on any provider
or transport failure the stored triggers are left unchanged. -/
theorem claim_C3_log_once_lastrun_iff_success :
    ∀ (env : Env) (st : SchedState) (msg : ScheduledMessage) (now : Nat),
      ((execute_message env st msg now).1.log =
        st.log ++ [⟨msg.message_type, (exec_outcome env msg).2,
                    (execute_message env st msg now).2⟩]) ∧
      ((execute_message env st msg now).2 = (exec_outcome env msg).1) ∧
      ((execute_message env st msg now).2 = true →
        (execute_message env st msg now).1.messages =
          update_last_run st.messages msg.id now) ∧
      ((execute_message env st msg now).2 = false →
        (execute_message env st msg now).1.messages = st.messages) ∧
      (execute_message env st msg now).1.flights = st.flights ∧
      (execute_message env st msg now).1.last_flight_status =
        st.last_flight_status := by
  intro env st msg now
  unfold execute_message log_message
  cases hb : (exec_outcome env msg).1 with
  | false => simp [hb]
  | true => simp [hb]

theorem claim_C3_log_once_lastrun_iff_success_witness :
    ((execute_message env0 st0 msg0 5).1.log =
      st0.log ++ [⟨msg0.message_type, (exec_outcome env0 msg0).2,
                   (execute_message env0 st0 msg0 5).2⟩]) ∧
    (execute_message env0 st0 msg0 5).1.messages =
      update_last_run st0.messages msg0.id 5 :=
  ⟨(claim_C3_log_once_lastrun_iff_success env0 st0 msg0 5).1,
   (claim_C3_log_once_lastrun_iff_success env0 st0 msg0 5).2.2.1 (by decide)⟩

theorem foldl_step_congr {α β : Type} (l : List β) (f g : α → β → α)
    (h : ∀ s m, f s m = g s m) : ∀ s : α, l.foldl f s = l.foldl g s := by
  induction l with
  | nil => intro s; rfl
  | cons m ms ih =>
      intro s
      rw [List.foldl_cons, List.foldl_cons, h]
      exact ih _

theorem check_run_eq_fold (env : Env) (st : SchedState) (now : Nat) :
    check_and_run_scheduled env st now =
      (st.messages.filter (fun m => m.enabled)).foldl
        (fun s m => if isDue env m now then (execute_message env s m now).1 else s)
        st := by
  unfold check_and_run_scheduled
  apply foldl_step_congr
  intro s m
  unfold isDue
  cases hc : env.cron_next m.cron_expression (m.last_run.getD epoch2000) with
  | ok t =>
      by_cases ht : t ≤ now
      · simp [ht]
      · simp [ht]
  | error e => simp

theorem isDue_iff (env : Env) (m : ScheduledMessage) (now : Nat) :
    isDue env m now = true ↔
      ∃ t, env.cron_next m.cron_expression (m.last_run.getD epoch2000) = .ok t ∧
        t ≤ now := by
  unfold isDue
  cases hc : env.cron_next m.cron_expression (m.last_run.getD epoch2000) with
  | ok t => simp
  | error e => simp

/-- Claim C4: the due check of the primary loop anchors the cron computation at
`last_run`, or at the epoch sentinel `datetime(2000,1,1)` when the trigger
never fired, and executes the trigger exactly when the computed occurrence is
`≤ now`; under croniter's contract (the computed occurrence is strictly after
the anchor) a never-fired trigger is due exactly when its first computed
occurrence — strictly after the sentinel — is at or before `now`. -/
theorem claim_C4_due_check :
    ∀ (env : Env) (st : SchedState) (now : Nat),
      (check_and_run_scheduled env st now =
        (st.messages.filter (fun m => m.enabled)).foldl
          (fun s m => if isDue env m now then (execute_message env s m now).1 else s)
          st) ∧
      (∀ m : ScheduledMessage,
        (isDue env m now = true ↔
          ∃ t, env.cron_next m.cron_expression (m.last_run.getD epoch2000) = .ok t ∧
            t ≤ now)) ∧
      (∀ m : ScheduledMessage, m.last_run = none →
        (isDue env m now = true ↔
          ∃ t, env.cron_next m.cron_expression epoch2000 = .ok t ∧ t ≤ now)) ∧
      (∀ m : ScheduledMessage,
        (∀ e b t, env.cron_next e b = .ok t → b < t) →
        (isDue env m now = true ↔
          ∃ t, env.cron_next m.cron_expression (m.last_run.getD epoch2000) = .ok t ∧
            m.last_run.getD epoch2000 < t ∧ t ≤ now)) := by
  intro env st now
  refine ⟨check_run_eq_fold env st now, fun m => isDue_iff env m now, ?_, ?_⟩
  · intro m hnone
    rw [isDue_iff env m now, hnone]
    exact Iff.rfl
  · intro m hstrict
    rw [isDue_iff env m now]
    constructor
    · rintro ⟨t, hok, hle⟩
      exact ⟨t, hok, hstrict _ _ _ hok, hle⟩
    · rintro ⟨t, hok, _, hle⟩
      exact ⟨t, hok, hle⟩

theorem claim_C4_due_check_witness :
    isDue env0 msg0 (epoch2000 + 1) = true :=
  ((claim_C4_due_check env0 st0 (epoch2000 + 1)).2.2.1 msg0 rfl).mpr
    ⟨epoch2000 + 1, rfl, Nat.le_refl _⟩

/-- The execution record that `execute_message` appends for a trigger: it
depends only on the environment and the trigger, not on the storage state. -/
def execEntry (env : Env) (m : ScheduledMessage) : LogEntry :=
  ⟨m.message_type, (exec_outcome env m).2, (exec_outcome env m).1⟩

theorem execute_message_log (env : Env) (st : SchedState)
    (msg : ScheduledMessage) (now : Nat) :
    (execute_message env st msg now).1.log = st.log ++ [execEntry env msg] := by
  unfold execute_message log_message execEntry
  dsimp only
  split <;> rfl

/-- Claim C5: in a single pass of the primary loop, the log grows by exactly the
records of the due enabled triggers, each produced independently of every
other trigger — a malformed cron expression, provider failure or transport
failure at one trigger (any oracle behaviour whatsoever) never prevents the
remaining triggers of the pass from being evaluated, and the pass always
runs to completion. -/
theorem claim_C5_per_trigger_isolation :
    ∀ (env : Env) (st : SchedState) (now : Nat),
      (check_and_run_scheduled env st now).log =
        st.log ++
          ((st.messages.filter (fun m => m.enabled)).map
            (fun m => if isDue env m now then [execEntry env m] else [])).flatten := by
  intro env st now
  rw [check_run_eq_fold]
  generalize st.messages.filter (fun m => m.enabled) = msgs
  induction msgs generalizing st with
  | nil => simp
  | cons m ms ih =>
      rw [List.foldl_cons, List.map_cons, List.flatten_cons]
      by_cases hd : isDue env m now = true
      · rw [if_pos hd, if_pos hd, ih ((execute_message env st m now).1),
          execute_message_log, List.append_assoc]
      · rw [if_neg hd, if_neg hd, ih st, List.nil_append]

theorem lookup_dictSet_self (d : List (String × String)) (k v : String) :
    List.lookup k (dictSet d k v) = some v := by
  simp [dictSet, List.lookup]

theorem check_one_flight (env : Env) (st : SchedState) (today : Nat)
    (f : TrackedFlight) (hfl : st.flights = [f]) (hen : f.enabled = true)
    (hd : f.flight_date = today) :
    check_active_flights env st today = flight_step env today st f := by
  unfold check_active_flights
  rw [hfl]
  have hkeep : List.filter (fun f => f.enabled && decide (today ≤ f.flight_date)) [f]
      = [f] := by
    simp [List.filter, hen, hd]
  rw [hkeep]
  rfl

theorem flight_step_no_fetch (env : Env) (today : Nat) (st : SchedState)
    (f : TrackedFlight)
    (hf : env.flight_fetch f.flight_number f.flight_date = none) :
    flight_step env today st f = st := by
  unfold flight_step
  rw [hf]
  split <;> rfl

theorem flight_step_same (env : Env) (today : Nat) (st : SchedState)
    (f : TrackedFlight) (s : String) (hd : f.flight_date = today)
    (hf : env.flight_fetch f.flight_number f.flight_date = some s)
    (hl : List.lookup (flightKey f) st.last_flight_status = some s) :
    flight_step env today st f = st := by
  unfold flight_step
  rw [if_neg (by simp [hd]), hf]
  dsimp only
  rw [if_neg (by simp [hl])]

theorem flight_step_dispatch_ok (env : Env) (today : Nat) (st : SchedState)
    (f : TrackedFlight) (s : String) (b : Bool) (hd : f.flight_date = today)
    (hf : env.flight_fetch f.flight_number f.flight_date = some s)
    (hl : List.lookup (flightKey f) st.last_flight_status ≠ some s)
    (hs : env.send_lines (env.flight_status_format s f) = .ok b) :
    flight_step env today st f =
      { st with
        log := st.log ++
          [⟨"flight_auto",
            String.intercalate "\n" (env.flight_status_format s f), b⟩],
        last_flight_status := dictSet st.last_flight_status (flightKey f) s } := by
  unfold flight_step
  rw [if_neg (by simp [hd]), hf]
  dsimp only
  rw [if_pos hl, hs]

theorem flight_step_dispatch_err (env : Env) (today : Nat) (st : SchedState)
    (f : TrackedFlight) (s : String) (e : String) (hd : f.flight_date = today)
    (hf : env.flight_fetch f.flight_number f.flight_date = some s)
    (hl : List.lookup (flightKey f) st.last_flight_status ≠ some s)
    (hs : env.send_lines (env.flight_status_format s f) = .error e) :
    flight_step env today st f = st := by
  unfold flight_step
  rw [if_neg (by simp [hd]), hf]
  dsimp only
  rw [if_pos hl, hs]

theorem append_single_ne (l : List LogEntry) (x : LogEntry) : l ++ [x] ≠ l := by
  intro he
  have := congrArg List.length he
  simp at this

/-- Claim C6: the flight watcher dispatches a display update exactly when the newly
fetched status differs from the in-memory last-observed status for the
flight's key (in particular on the first observation, when nothing is
recorded); consequently two consecutive identical observations produce
exactly one dispatched update — the second pass leaves the state untouched —
and a subsequently changed status produces a second dispatch. -/
theorem claim_C6_flight_change_detection :
    (∀ (env : Env) (st : SchedState) (today : Nat) (f : TrackedFlight),
      st.flights = [f] → f.enabled = true → f.flight_date = today →
      (∀ lines, ∃ b, env.send_lines lines = .ok b) →
      ((check_active_flights env st today).log ≠ st.log ↔
        ∃ s, env.flight_fetch f.flight_number f.flight_date = some s ∧
          List.lookup (flightKey f) st.last_flight_status ≠ some s)) ∧
    (∀ (env1 env2 env3 : Env) (st : SchedState) (today : Nat)
       (f : TrackedFlight) (s s2 : String) (b1 b3 : Bool),
      st.flights = [f] → f.enabled = true → f.flight_date = today →
      List.lookup (flightKey f) st.last_flight_status = none →
      env1.flight_fetch f.flight_number f.flight_date = some s →
      env2.flight_fetch f.flight_number f.flight_date = some s →
      env3.flight_fetch f.flight_number f.flight_date = some s2 →
      s ≠ s2 →
      env1.send_lines (env1.flight_status_format s f) = .ok b1 →
      env3.send_lines (env3.flight_status_format s2 f) = .ok b3 →
      ((check_active_flights env1 st today).log.length = st.log.length + 1 ∧
       check_active_flights env2 (check_active_flights env1 st today) today =
         check_active_flights env1 st today ∧
       (check_active_flights env3
          (check_active_flights env2 (check_active_flights env1 st today) today)
          today).log.length =
         (check_active_flights env1 st today).log.length + 1)) := by
  constructor
  · intro env st today f hfl hen hd hok
    rw [check_one_flight env st today f hfl hen hd]
    cases hf : env.flight_fetch f.flight_number f.flight_date with
    | none =>
        rw [flight_step_no_fetch env today st f hf]
        simp
    | some s =>
        by_cases hl : List.lookup (flightKey f) st.last_flight_status = some s
        · rw [flight_step_same env today st f s hd hf hl]
          simp only [ne_eq, not_true_eq_false, false_iff, not_exists]
          rintro s2 ⟨hs2, hne2⟩
          have hss : s2 = s := (Option.some.inj hs2).symm
          exact hne2 (hss ▸ hl)
        · obtain ⟨b, hb⟩ := hok (env.flight_status_format s f)
          rw [flight_step_dispatch_ok env today st f s b hd hf hl hb]
          simp only [ne_eq]
          constructor
          · intro _
            exact ⟨s, rfl, hl⟩
          · intro _
            exact append_single_ne st.log _
  · intro env1 env2 env3 st today f s s2 b1 b3 hfl hen hd hlk hf1 hf2 hf3 hne hs1 hs3
    have h1 : check_active_flights env1 st today =
        { st with
          log := st.log ++
            [⟨"flight_auto",
              String.intercalate "\n" (env1.flight_status_format s f), b1⟩],
          last_flight_status := dictSet st.last_flight_status (flightKey f) s } := by
      rw [check_one_flight env1 st today f hfl hen hd,
        flight_step_dispatch_ok env1 today st f s b1 hd hf1 (by rw [hlk]; simp) hs1]
    have hfl1 : (check_active_flights env1 st today).flights = [f] := by
      rw [h1]
      exact hfl
    have hlk1 : List.lookup (flightKey f)
        (check_active_flights env1 st today).last_flight_status = some s := by
      rw [h1]
      exact lookup_dictSet_self _ _ _
    have h2 : check_active_flights env2 (check_active_flights env1 st today) today =
        check_active_flights env1 st today := by
      rw [check_one_flight env2 _ today f hfl1 hen hd,
        flight_step_same env2 today _ f s hd hf2 hlk1]
    refine ⟨by rw [h1]; simp, h2, ?_⟩
    rw [h2]
    have hlk2 : List.lookup (flightKey f)
        (check_active_flights env1 st today).last_flight_status ≠ some s2 := by
      rw [hlk1]
      simp [hne]
    rw [check_one_flight env3 _ today f hfl1 hen hd,
      flight_step_dispatch_ok env3 today _ f s2 b3 hd hf3 hlk2 hs3]
    simp

/-- Oracle environment whose flight fetcher always reports status `s`. -/
def envF (s : String) : Env := { env0 with flight_fetch := fun _ _ => some s }

/-- A concrete tracked flight for day 7. -/
def f0 : TrackedFlight := ⟨1, "AA100", 7, true⟩

/-- A concrete state tracking just `f0`. -/
def stF : SchedState := ⟨[], [f0], [], []⟩

theorem claim_C6_flight_change_detection_witness :
    (check_active_flights (envF "active") stF 7).log.length = stF.log.length + 1 ∧
    check_active_flights (envF "active")
        (check_active_flights (envF "active") stF 7) 7 =
      check_active_flights (envF "active") stF 7 ∧
    (check_active_flights (envF "landed")
        (check_active_flights (envF "active")
          (check_active_flights (envF "active") stF 7) 7) 7).log.length =
      (check_active_flights (envF "active") stF 7).log.length + 1 :=
  claim_C6_flight_change_detection.2 (envF "active") (envF "active") (envF "landed")
    stF 7 f0 "active" "landed" true true rfl rfl rfl rfl rfl rfl rfl
    (by decide) rfl rfl

end Vestaboard
